import Mathlib

/-!
Verification of the `file_set` library: a shallow embedding of
`src/lib.rs` (FileSet), `src/ordered_set.rs` (OrderedSet),
`src/orderable_set.rs` (OrderableSet) and `src/enums.rs`, together with
theorems settling the frozen claims about the specification.

Modelling conventions:
* A Rust `&OsStr` name component is a `List Char` (UTF-8 byte order on
  valid data coincides with code-point lexicographic order).
* A `PathBuf` is its list of components.
* The filesystem is a value `Fs` giving each path its link-aware
  (`symlink_metadata`) result: `none` models a failing metadata read.
* A Rust panic (from `.unwrap()`) is modelled as `Option.none` of the
  whole operation: the surrounding computation produces no value.
* `indexmap::IndexSet` is a duplicate-free insertion-ordered sequence;
  collecting an iterator into one keeps the first occurrence of each
  element.  Its stable `sort_by` is modelled by insertion sort on the
  same comparator (insertion sort is stable, and a stable sort's output
  is uniquely determined by the comparator and the input order).
-/

namespace FileSetVerif

/-- A file-name component (the characters of one `OsStr`). -/
abbrev Name := List Char

/-- A path, as its list of components (model of `std::path::PathBuf`). -/
abbrev PathBuf := List Name

/-- Model of `std::path::Path::file_name`: the final component, or
`none` for an empty path or a path terminating in `..`. -/
def fileName (p : PathBuf) : Option Name :=
  match p.getLast? with
  | none => none
  | some c => if c = ['.', '.'] then none else some c

/-- Characters after the last `.` of a list, if any (`none` when the
list has no dot). -/
def afterLastDot : List Char → Option (List Char)
  | [] => none
  | c :: rest =>
    match afterLastDot rest with
    | some e => some e
    | none => if c = '.' then some rest else none

/-- Model of `std::path::Path::extension`: the portion of the file name
after its final `.`, ignoring a dot in the leading position (so a name
that starts with `.` and has no other dot has no extension); `none`
when there is no file name or no embedded dot. -/
def extension (p : PathBuf) : Option Name :=
  match fileName p with
  | none => none
  | some [] => none
  | some (_ :: rest) => afterLastDot rest

/-- Model of `std::fs::FileType` as observed through the three
predicates `is_dir` / `is_file` / `is_symlink` the code calls
(`other` covers kinds such as sockets and FIFOs, for which all three
predicates are false). -/
inductive FileType where
  | dir
  | file
  | symlink
  | other
deriving DecidableEq

/-- Model of `FileType::is_dir`. -/
def FileType.is_dir : FileType → Bool
  | .dir => true
  | _ => false

/-- Model of `FileType::is_file`. -/
def FileType.is_file : FileType → Bool
  | .file => true
  | _ => false

/-- Model of `FileType::is_symlink`. -/
def FileType.is_symlink : FileType → Bool
  | .symlink => true
  | _ => false

/-- Model of `std::fs::Metadata` restricted to the fields the code
reads: `file_type()` and `len()`. -/
structure Metadata where
  fileType : FileType
  len : Nat
deriving DecidableEq

/-- A fixed filesystem state: `symlinkMeta p` is the result of
`p.symlink_metadata()` — link-aware metadata, `none` when the read
fails.  For a path that is not itself a symlink, the link-aware kind
coincides with the resolved kind. -/
structure Fs where
  symlinkMeta : PathBuf → Option Metadata

/-! ## `src/ordered_set.rs`: `OrderedSet<T>` -/

/-- Model of `OrderedSet<T>` from `src/ordered_set.rs`: a `Vec<T>`
whose pushes reject duplicates. -/
structure OrderedSet (T : Type) where
  items : List T
deriving DecidableEq

/-- Model of `OrderedSet::new`. -/
def OrderedSet.new (T : Type) : OrderedSet T :=
  ⟨[]⟩

/-- Model of `OrderedSet::push`: `none` models the
`Err("Cannot add an item to set that already exists in the set")`
return; on success the item is appended at the end of the (mutated)
receiver. -/
def OrderedSet.push {T : Type} [DecidableEq T] (s : OrderedSet T) (item : T) :
    Option (OrderedSet T) :=
  if item ∈ s.items then none else some ⟨s.items ++ [item]⟩

/-- Model of `OrderedSet::intersection_difference_base`: keep the
receiver's items whose membership in `other` equals the flag. -/
def OrderedSet.intersection_difference_base {T : Type} [DecidableEq T]
    (s other : OrderedSet T) (should_compute_intersection : Bool) : OrderedSet T :=
  ⟨s.items.filter fun x => decide (x ∈ other.items) == should_compute_intersection⟩

/-- Model of `OrderedSet::intersection`. -/
def OrderedSet.intersection {T : Type} [DecidableEq T] (s other : OrderedSet T) :
    OrderedSet T :=
  s.intersection_difference_base other true

/-- Model of `OrderedSet::difference`. -/
def OrderedSet.difference {T : Type} [DecidableEq T] (s other : OrderedSet T) :
    OrderedSet T :=
  s.intersection_difference_base other false

/-- Model of `OrderedSet::reverse`, which both mutates the receiver in
place and returns a clone of the reversed items: the first component is
the returned set, the second the receiver's state after the call. -/
def OrderedSet.reverse {T : Type} (s : OrderedSet T) :
    OrderedSet T × OrderedSet T :=
  (⟨s.items.reverse⟩, ⟨s.items.reverse⟩)

/-- Model of `OrderedSet::to_vec`: a full copy of the items. -/
def OrderedSet.to_vec {T : Type} (s : OrderedSet T) : List T :=
  s.items

/-- Model of `OrderedSet::is_disjoint`. -/
def OrderedSet.is_disjoint {T : Type} [DecidableEq T] (s other : OrderedSet T) :
    Bool :=
  (s.intersection other).to_vec.isEmpty

/-- Model of `TryFrom<Vec<T>> for OrderedSet<T>`: `none` models the
`Err("All elements of the set must be unique")` return taken when some
value occurs more than once; otherwise the vector is wrapped verbatim. -/
def OrderedSet.try_from {T : Type} [DecidableEq T] (vec : List T) :
    Option (OrderedSet T) :=
  if vec.any fun item => 1 < vec.count item then none else some ⟨vec⟩

/-! ## `src/orderable_set.rs`: `OrderableSet<T>` (transcribed separately) -/

/-- Model of `OrderableSet<T>` from `src/orderable_set.rs`. -/
structure OrderableSet (T : Type) where
  items : List T
deriving DecidableEq

/-- Model of `OrderableSet::new`. -/
def OrderableSet.new (T : Type) : OrderableSet T :=
  ⟨[]⟩

/-- Model of `OrderableSet::push`. -/
def OrderableSet.push {T : Type} [DecidableEq T] (s : OrderableSet T) (item : T) :
    Option (OrderableSet T) :=
  if item ∈ s.items then none else some ⟨s.items ++ [item]⟩

/-- Model of `OrderableSet::intersection_difference_base`. -/
def OrderableSet.intersection_difference_base {T : Type} [DecidableEq T]
    (s other : OrderableSet T) (should_compute_intersection : Bool) : OrderableSet T :=
  ⟨s.items.filter fun x => decide (x ∈ other.items) == should_compute_intersection⟩

/-- Model of `OrderableSet::intersection`. -/
def OrderableSet.intersection {T : Type} [DecidableEq T] (s other : OrderableSet T) :
    OrderableSet T :=
  s.intersection_difference_base other true

/-- Model of `OrderableSet::difference`. -/
def OrderableSet.difference {T : Type} [DecidableEq T] (s other : OrderableSet T) :
    OrderableSet T :=
  s.intersection_difference_base other false

/-- Model of `OrderableSet::reverse` (returned set, post-call receiver). -/
def OrderableSet.reverse {T : Type} (s : OrderableSet T) :
    OrderableSet T × OrderableSet T :=
  (⟨s.items.reverse⟩, ⟨s.items.reverse⟩)

/-- Model of `OrderableSet::to_vec`. -/
def OrderableSet.to_vec {T : Type} (s : OrderableSet T) : List T :=
  s.items

/-- Model of `OrderableSet::is_disjoint`. -/
def OrderableSet.is_disjoint {T : Type} [DecidableEq T] (s other : OrderableSet T) :
    Bool :=
  (s.intersection other).to_vec.isEmpty

/-- Model of `TryFrom<Vec<T>> for OrderableSet<T>`. -/
def OrderableSet.try_from {T : Type} [DecidableEq T] (vec : List T) :
    Option (OrderableSet T) :=
  if vec.any fun item => 1 < vec.count item then none else some ⟨vec⟩

/-! ## Observational traces over the two set implementations -/

/-- One operation of the common set interface, with any second set
argument given by its item sequence. -/
inductive SetOp (T : Type) where
  | pushOp (x : T)
  | reverseOp
  | intersectionOp (other : List T)
  | differenceOp (other : List T)
  | isDisjointOp (other : List T)
  | toVecOp

/-- The observable output of one set operation. -/
inductive SetOut (T : Type) where
  | okOut
  | errOut
  | vecOut (l : List T)
  | boolOut (b : Bool)
deriving DecidableEq

/-- One step of `OrderedSet` under an operation: the new receiver state
and the observable output (`push` mutates only on success; `reverse`
also returns the reversed clone, observed through its items). -/
def OrderedSet.step {T : Type} [DecidableEq T] (s : OrderedSet T) :
    SetOp T → OrderedSet T × SetOut T
  | .pushOp x =>
    match s.push x with
    | none => (s, .errOut)
    | some t => (t, .okOut)
  | .reverseOp => ((s.reverse).2, .vecOut (s.reverse).1.items)
  | .intersectionOp o => (s, .vecOut (s.intersection ⟨o⟩).items)
  | .differenceOp o => (s, .vecOut (s.difference ⟨o⟩).items)
  | .isDisjointOp o => (s, .boolOut (s.is_disjoint ⟨o⟩))
  | .toVecOp => (s, .vecOut s.to_vec)

/-- Run a sequence of operations on an `OrderedSet`, collecting the
final state and the output trace. -/
def OrderedSet.run {T : Type} [DecidableEq T] (s : OrderedSet T) :
    List (SetOp T) → OrderedSet T × List (SetOut T)
  | [] => (s, [])
  | op :: ops =>
    let p := s.step op
    let q := p.1.run ops
    (q.1, p.2 :: q.2)

/-- One step of `OrderableSet` under an operation. -/
def OrderableSet.step {T : Type} [DecidableEq T] (s : OrderableSet T) :
    SetOp T → OrderableSet T × SetOut T
  | .pushOp x =>
    match s.push x with
    | none => (s, .errOut)
    | some t => (t, .okOut)
  | .reverseOp => ((s.reverse).2, .vecOut (s.reverse).1.items)
  | .intersectionOp o => (s, .vecOut (s.intersection ⟨o⟩).items)
  | .differenceOp o => (s, .vecOut (s.difference ⟨o⟩).items)
  | .isDisjointOp o => (s, .boolOut (s.is_disjoint ⟨o⟩))
  | .toVecOp => (s, .vecOut s.to_vec)

/-- Run a sequence of operations on an `OrderableSet`. -/
def OrderableSet.run {T : Type} [DecidableEq T] (s : OrderableSet T) :
    List (SetOp T) → OrderableSet T × List (SetOut T)
  | [] => (s, [])
  | op :: ops =>
    let p := s.step op
    let q := p.1.run ops
    (q.1, p.2 :: q.2)

/-! ## `src/enums.rs` -/

/-- Model of `enums::ItemFilter`. -/
inductive ItemFilter where
  | Directory
  | File
  | Symlink
deriving DecidableEq

/-- Model of `enums::TextFilterBy`. -/
inductive TextFilterBy where
  | Extension
  | Name
deriving DecidableEq

/-- Model of `enums::VisibilityFilter`. -/
inductive VisibilityFilter where
  | Hidden
  | Visible
deriving DecidableEq

/-- Model of `enums::Filter` (the `Size` variant is commented out in
the source). -/
inductive Filter where
  | Item : ItemFilter → Filter
  | Text : TextFilterBy → Name → Filter
  | Visibility : VisibilityFilter → Filter

/-- Model of `enums::OrderBy`. -/
inductive OrderBy where
  | Extension
  | Item
  | Name
  | Size
deriving DecidableEq

/-! ## `src/lib.rs`: `FileSet` -/

/-- Model of `FileSet`: the wrapped `IndexSet<PathBuf>` as its
insertion-ordered, duplicate-free item sequence. -/
structure FileSet where
  index_set : List PathBuf
deriving DecidableEq

/-- Collecting an iterator into an `IndexSet`: keep the first
occurrence of each element, preserving encounter order. -/
def indexSetCollect (l : List PathBuf) : List PathBuf :=
  l.foldl (fun acc x => if x ∈ acc then acc else acc ++ [x]) []

/-- Model of `FileSet::new`.  The argument models the outcome of
`read_dir(&directory)`: `none` when the directory itself cannot be
opened, otherwise the entry iterator, with `none` entries for child
entries whose read fails.  The source unwraps both results
(`read_dir(&directory).unwrap()` and `.map(|x| x.unwrap().path())`),
so either failure panics — modelled as the whole construction
producing `none`; no error value is ever returned. -/
def FileSet.new (listing : Option (List (Option PathBuf))) : Option FileSet :=
  match listing with
  | none => none
  | some entries =>
    if entries.all Option.isSome then
      some ⟨indexSetCollect (entries.filterMap id)⟩
    else none

/-- The error type claim C1 attributes to construction.
Modelled from the spec: no such error type exists in `src/`; the spec
names `DirectoryUnreadable` as the failure value of construction. -/
inductive FileSetError where
  | DirectoryUnreadable
deriving DecidableEq

/-- Construction as claim C1 describes it.
Modelled from the spec: a failure to open the directory itself yields
the error value `DirectoryUnreadable`; each child entry that cannot be
read is silently skipped; construction never aborts. -/
def FileSet.new_claimed (listing : Option (List (Option PathBuf))) :
    Except FileSetError FileSet :=
  match listing with
  | none => .error .DirectoryUnreadable
  | some entries => .ok ⟨indexSetCollect (entries.filterMap id)⟩

/-- Model of `FileSet::filter_by_item`: keep the paths whose link-aware
metadata is readable and whose file type satisfies the selected
predicate (`unwrap_or(false)` drops unreadable paths). -/
def FileSet.filter_by_item (env : Fs) (s : FileSet) (item_filter : ItemFilter) :
    List PathBuf :=
  let is_file_type_function : FileType → Bool :=
    match item_filter with
    | .Directory => FileType.is_dir
    | .File => FileType.is_file
    | .Symlink => FileType.is_symlink
  s.index_set.filter fun path_buf =>
    match env.symlinkMeta path_buf with
    | some metadata => is_file_type_function metadata.fileType
    | none => false

/-- Model of `FileSet::filter_by_text`: keep the paths whose selected
component (extension or file name) exists and starts with the given
text (`unwrap_or(false)` drops paths lacking the component). -/
def FileSet.filter_by_text (s : FileSet) (text_filter_by : TextFilterBy)
    (text : Name) : List PathBuf :=
  let get_name_or_extension_function : PathBuf → Option Name :=
    match text_filter_by with
    | .Extension => extension
    | .Name => fileName
  s.index_set.filter fun path_buf =>
    match get_name_or_extension_function path_buf with
    | some name_or_extension => text.isPrefixOf name_or_extension
    | none => false

/-- True iff the name starts with a dot (model of
`to_string_lossy().starts_with('.')`). -/
def startsWithDot : Name → Bool
  | '.' :: _ => true
  | _ => false

/-- Model of `FileSet::filter_by_visibility`: keep the paths whose file
name exists and whose hiddenness matches the selected visibility; a
path with no file name is skipped. -/
def FileSet.filter_by_visibility (s : FileSet) (visibility_filter : VisibilityFilter) :
    List PathBuf :=
  let should_find_visible_files : Bool :=
    match visibility_filter with
    | .Hidden => false
    | .Visible => true
  s.index_set.filter fun x =>
    match fileName x with
    | some file_name => should_find_visible_files != startsWithDot file_name
    | none => false

/-- Model of `FileSet::filter`. -/
def FileSet.filter (env : Fs) (s : FileSet) (f : Filter) : FileSet :=
  ⟨match f with
    | .Item item_filter => s.filter_by_item env item_filter
    | .Text text_filter_by text => s.filter_by_text text_filter_by text
    | .Visibility visibility_filter => s.filter_by_visibility visibility_filter⟩

/-- Model of `FileSet::exclude`: the receiver minus `filter(filter)`,
via `IndexSet::difference` (receiver's items not in the filtered set,
in the receiver's order). -/
def FileSet.exclude (env : Fs) (s : FileSet) (f : Filter) : FileSet :=
  let items_to_exclude : FileSet := s.filter env f
  ⟨s.index_set.filter fun x => decide (x ∉ items_to_exclude.index_set)⟩

/-- Model of `IndexSet::union`: the first set's items in order, then
the second set's items not already present, in their order. -/
def indexSetUnion (a b : List PathBuf) : List PathBuf :=
  a ++ b.filter fun x => decide (x ∉ a)

/-- Model of `FileSet::order_by_item`: the union, in sequence, of the
filter-by-kind results for directories, files and symlinks. -/
def FileSet.order_by_item (env : Fs) (s : FileSet) : List PathBuf :=
  let directories : FileSet := s.filter env (Filter.Item ItemFilter.Directory)
  let files : FileSet := s.filter env (Filter.Item ItemFilter.File)
  let symlinks : FileSet := s.filter env (Filter.Item ItemFilter.Symlink)
  indexSetUnion (indexSetUnion directories.index_set files.index_set)
    symlinks.index_set

/-- Stable sort of a list by a key into a linear order, modelling the
stable `sort_by` with comparator `Ord::cmp(&key(a), &key(b))`
(insertion sort inserts each earlier element before later key-equal
ones, so it is the stable sort for this comparator). -/
def keyRel {α β : Type} [LinearOrder β] (key : α → β) (a b : α) : Prop :=
  key a ≤ key b

instance keyRelDecidable {α β : Type} [LinearOrder β] (key : α → β) :
    DecidableRel (keyRel key) :=
  fun a b => inferInstanceAs (Decidable (key a ≤ key b))

instance keyRelTotal {α β : Type} [LinearOrder β] (key : α → β) :
    IsTotal α (keyRel key) :=
  ⟨fun a b => le_total (key a) (key b)⟩

instance keyRelTrans {α β : Type} [LinearOrder β] (key : α → β) :
    IsTrans α (keyRel key) :=
  ⟨fun _ _ _ h1 h2 => le_trans h1 h2⟩

def sortByKey {α β : Type} [LinearOrder β] (key : α → β) (l : List α) : List α :=
  l.insertionSort (keyRel key)

/-- The `Ord::cmp(&a.extension(), &b.extension())` sort key:
`Option<&OsStr>` with `None` below every `Some`. -/
def extensionKey (p : PathBuf) : WithBot Name :=
  match extension p with
  | none => ⊥
  | some e => (e : Name)

/-- The `Ord::cmp(&a.file_name(), &b.file_name())` sort key. -/
def nameKey (p : PathBuf) : WithBot Name :=
  match fileName p with
  | none => ⊥
  | some n => (n : Name)

/-- The size key `|a| a.symlink_metadata().unwrap().len()`, as used on
a path whose metadata read succeeds (on a failing path the closure
panics; the `getD 0` branch is never reached by `order_by`, which only
sorts by size when every path's metadata is readable). -/
def sizeKey (env : Fs) (p : PathBuf) : Nat :=
  ((env.symlinkMeta p).map Metadata.len).getD 0

/-- Model of `FileSet::order_by_extension_name_size`, a stable sort of
the items by the selected comparator.  The `Size` comparator calls
`symlink_metadata().unwrap()`: with at least two items Rust's adaptive
stable sort evaluates the comparator on every adjacent pair while
detecting runs, so one unreadable path makes the call panic (`none`);
with at most one item the comparator never runs. -/
def FileSet.order_by_extension_name_size (env : Fs) (s : FileSet)
    (order_by : OrderBy) : Option (List PathBuf) :=
  match order_by with
  | .Extension => some (sortByKey extensionKey s.index_set)
  | .Name => some (sortByKey nameKey s.index_set)
  | _ =>
    if s.index_set.length ≤ 1 then
      some s.index_set
    else if s.index_set.all fun p => (env.symlinkMeta p).isSome then
      some (sortByKey (sizeKey env) s.index_set)
    else none

/-- Model of `FileSet::order_by` (`Item` dispatches to
`order_by_item`, everything else to `order_by_extension_name_size`). -/
def FileSet.order_by (env : Fs) (s : FileSet) (order_by : OrderBy) :
    Option FileSet :=
  match order_by with
  | .Item => some ⟨s.order_by_item env⟩
  | _ => (s.order_by_extension_name_size env order_by).map FileSet.mk

/-- Model of `FileSet::reverse`: the items in reverse order (the
re-collect into an `IndexSet` keeps first occurrences, which on the
duplicate-free `index_set` is the reversed sequence itself). -/
def FileSet.reverse (s : FileSet) : FileSet :=
  ⟨s.index_set.reverse⟩

/-- Model of `FileSet::to_vec`. -/
def FileSet.to_vec (s : FileSet) : List PathBuf :=
  s.index_set

/-- Model of `FileSet::len`. -/
def FileSet.len (s : FileSet) : Nat :=
  s.index_set.length

/-- Model of `FileSet::is_empty`. -/
def FileSet.is_empty (s : FileSet) : Bool :=
  s.index_set.isEmpty

/-! ## Concrete inputs for witnesses and counterexamples -/

/-- A concrete one-component path `a`. -/
def pathA : PathBuf := [['a']]

/-- A concrete one-component path `b`. -/
def pathB : PathBuf := [['b']]

/-- A concrete one-component path `c`. -/
def pathC : PathBuf := [['c']]

/-- A concrete filesystem: `a` is a regular file of size 1, `b` is
unreadable, `c` is a symlink of size 0. -/
def envOne : Fs :=
  ⟨fun p =>
    if p = pathA then some ⟨FileType.file, 1⟩
    else if p = pathC then some ⟨FileType.symlink, 0⟩
    else none⟩

/-! ## Helper lemmas -/

theorem sortByKey_perm {α β : Type} [LinearOrder β] (key : α → β) (l : List α) :
    (sortByKey key l).Perm l :=
  List.perm_insertionSort (keyRel key) l

theorem sortByKey_sorted {α β : Type} [LinearOrder β] (key : α → β) (l : List α) :
    (sortByKey key l).Pairwise (keyRel key) :=
  List.sorted_insertionSort (keyRel key) l

theorem sortByKey_idem {α β : Type} [LinearOrder β] (key : α → β) (l : List α) :
    sortByKey key (sortByKey key l) = sortByKey key l :=
  List.Sorted.insertionSort_eq (sortByKey_sorted key l)

theorem filter_key_orderedInsert {α β : Type} [LinearOrder β] (key : α → β)
    (k : β) (q : α → Bool) (hq : ∀ x, q x = true ↔ key x = k) (a : α) (s : List α) :
    (s.orderedInsert (keyRel key) a).filter q =
      if key a = k then a :: s.filter q else s.filter q := by
  induction s with
  | nil =>
    by_cases h : key a = k
    · simp [List.orderedInsert, List.filter_cons, h, (hq a).mpr h]
    · have hqa : q a = false := by
        rw [← Bool.not_eq_true]
        exact fun hh => h ((hq a).mp hh)
      simp [List.orderedInsert, List.filter_cons, h, hqa]
  | cons b s ih =>
    by_cases hab : keyRel key a b
    · by_cases h : key a = k
      · simp [List.orderedInsert, hab, List.filter_cons, h, (hq a).mpr h]
      · have hqa : q a = false := by
          rw [← Bool.not_eq_true]
          exact fun hh => h ((hq a).mp hh)
        simp [List.orderedInsert, hab, List.filter_cons, h, hqa]
    · have hstep : (b :: s).orderedInsert (keyRel key) a =
          b :: s.orderedInsert (keyRel key) a := by
        simp [List.orderedInsert, hab]
      rw [hstep]
      by_cases h : key a = k
      · have hb : ¬(key b = k) := fun hbk => hab (le_of_eq (h.trans hbk.symm))
        have hqb : q b = false := by
          rw [← Bool.not_eq_true]
          exact fun hh => hb ((hq b).mp hh)
        simp [List.filter_cons, hqb, ih, h]
      · simp [List.filter_cons, ih, h]

theorem sortByKey_filter_key {α β : Type} [LinearOrder β] (key : α → β)
    (k : β) (q : α → Bool) (hq : ∀ x, q x = true ↔ key x = k) (l : List α) :
    (sortByKey key l).filter q = l.filter q := by
  induction l with
  | nil => rfl
  | cons a l ih =>
    show ((sortByKey key l).orderedInsert (keyRel key) a).filter q = _
    rw [filter_key_orderedInsert key k q hq, ih]
    by_cases h : key a = k
    · simp [List.filter_cons, h, (hq a).mpr h]
    · have hqa : q a = false := by
        rw [← Bool.not_eq_true]
        exact fun hh => h ((hq a).mp hh)
      simp [List.filter_cons, h, hqa]

/-! ## Claim theorems for `OrderedSet` and `OrderableSet` -/

/-- Claim C8: `OrderedSet::push` fails when the item is already present
by equality and otherwise appends it at the end; `TryFrom<Vec<T>>`
fails when the vector contains any repeated value and otherwise wraps
the vector verbatim, preserving its order.  Duplicates are rejected
with an error, never silently deduplicated. -/
theorem orderedSet_push_try_from_spec {T : Type} [DecidableEq T]
    (s : OrderedSet T) (x : T) (l : List T) :
    (x ∈ s.items → s.push x = none) ∧
      (x ∉ s.items → s.push x = some ⟨s.items ++ [x]⟩) ∧
      ((∃ y ∈ l, 1 < l.count y) → OrderedSet.try_from l = none) ∧
      ((∀ y ∈ l, l.count y ≤ 1) → OrderedSet.try_from l = some ⟨l⟩) := by
  refine ⟨fun h => ?_, fun h => ?_, fun h => ?_, fun h => ?_⟩
  · simp [OrderedSet.push, h]
  · simp [OrderedSet.push, h]
  · rcases h with ⟨y, hy, hc⟩
    have hany : (l.any fun item => decide (1 < l.count item)) = true :=
      List.any_eq_true.mpr ⟨y, hy, decide_eq_true hc⟩
    simp [OrderedSet.try_from, hany]
  · have hany : (l.any fun item => decide (1 < l.count item)) = false := by
      rw [List.any_eq_false]
      intro y hy
      simpa using Nat.not_lt.mpr (h y hy)
    simp [OrderedSet.try_from, hany]

/-- Claim C8 witness: concrete pushes and constructions over `Nat`. -/
theorem orderedSet_push_try_from_spec_witness :
    (OrderedSet.mk [1, 2] : OrderedSet Nat).push 1 = none ∧
      (OrderedSet.mk [1, 2] : OrderedSet Nat).push 3 = some ⟨[1, 2, 3]⟩ ∧
      OrderedSet.try_from [1, 2, 1] = (none : Option (OrderedSet Nat)) ∧
      OrderedSet.try_from [1, 2, 3] = some (OrderedSet.mk [1, 2, 3]) :=
  ⟨(orderedSet_push_try_from_spec ⟨[1, 2]⟩ 1 []).1 (by decide),
    (orderedSet_push_try_from_spec ⟨[1, 2]⟩ 3 []).2.1 (by decide),
    (orderedSet_push_try_from_spec ⟨[]⟩ 0 [1, 2, 1]).2.2.1 ⟨1, by decide, by decide⟩,
    (orderedSet_push_try_from_spec ⟨[]⟩ 0 [1, 2, 3]).2.2.2 (by decide)⟩

/-- Claim C9: `OrderedSet::reverse` leaves the receiver holding the
exact reverse of its previous element order and returns a new set
holding that same reversed sequence. -/
theorem orderedSet_reverse_spec {T : Type} (s : OrderedSet T) :
    (s.reverse.2.items = s.items.reverse ∧
      ∀ i, i < s.items.length →
        s.reverse.2.items[s.items.length - 1 - i]? = s.items[i]?) ∧
      s.reverse.1 = s.reverse.2 := by
  refine ⟨⟨rfl, fun i hi => ?_⟩, rfl⟩
  have h1 : s.items.length - 1 - i < s.items.length := by omega
  show s.items.reverse[s.items.length - 1 - i]? = s.items[i]?
  rw [List.getElem?_reverse h1]
  congr 1
  omega

/-- Claim C9 witness: reversing `[1, 2, 3]`. -/
theorem orderedSet_reverse_spec_witness :
    0 < 3 ∧ (OrderedSet.mk [1, 2, 3] : OrderedSet Nat).reverse.2.items[2]? = some 1 :=
  ⟨by decide, by
    simpa using (orderedSet_reverse_spec (⟨[1, 2, 3]⟩ : OrderedSet Nat)).1.2 0 (by decide)⟩

theorem step_items_eq {T : Type} [DecidableEq T] (is : List T) (op : SetOp T) :
    ((OrderedSet.mk is).step op).1.items = ((OrderableSet.mk is).step op).1.items ∧
      ((OrderedSet.mk is).step op).2 = ((OrderableSet.mk is).step op).2 := by
  cases op with
  | pushOp x =>
    by_cases h : x ∈ is <;>
      simp [OrderedSet.step, OrderableSet.step, OrderedSet.push, OrderableSet.push, h]
  | reverseOp =>
    exact ⟨rfl, rfl⟩
  | intersectionOp o =>
    exact ⟨rfl, rfl⟩
  | differenceOp o =>
    exact ⟨rfl, rfl⟩
  | isDisjointOp o =>
    exact ⟨rfl, rfl⟩
  | toVecOp =>
    exact ⟨rfl, rfl⟩

theorem run_eq {T : Type} [DecidableEq T] (ops : List (SetOp T)) (init : List T) :
    ((OrderedSet.mk init).run ops).1.items = ((OrderableSet.mk init).run ops).1.items ∧
      ((OrderedSet.mk init).run ops).2 = ((OrderableSet.mk init).run ops).2 := by
  induction ops generalizing init with
  | nil => exact ⟨rfl, rfl⟩
  | cons op ops ih =>
    obtain ⟨h1, h2⟩ := step_items_eq init op
    simp only [OrderedSet.run, OrderableSet.run]
    have e1 : ((OrderedSet.mk init).step op).1 =
        OrderedSet.mk (((OrderedSet.mk init).step op).1.items) := rfl
    have e2 : ((OrderableSet.mk init).step op).1 =
        OrderableSet.mk (((OrderableSet.mk init).step op).1.items) := rfl
    rw [e1, e2, h1, h2]
    obtain ⟨ih1, ih2⟩ := ih (((OrderableSet.mk init).step op).1.items)
    rw [ih1, ih2]
    exact ⟨rfl, rfl⟩

/-- Claim C10: the two set implementations `OrderedSet<T>` and
`OrderableSet<T>` are observationally equivalent — starting from the
same item sequence, every sequence of operations (push, reverse,
intersection, difference, is_disjoint, to_vec) produces equal output
traces and equal final states, and `new` and `try_from` agree. -/
theorem ordered_orderable_equiv {T : Type} [DecidableEq T] (init : List T)
    (ops : List (SetOp T)) (l : List T) :
    ((OrderedSet.mk init).run ops).1.items = ((OrderableSet.mk init).run ops).1.items ∧
      ((OrderedSet.mk init).run ops).2 = ((OrderableSet.mk init).run ops).2 ∧
      (OrderedSet.try_from l).map OrderedSet.items =
        (OrderableSet.try_from l).map OrderableSet.items ∧
      (OrderedSet.new T).items = (OrderableSet.new T).items := by
  refine ⟨(run_eq ops init).1, (run_eq ops init).2, ?_, rfl⟩
  by_cases h : (l.any fun item => decide (1 < l.count item)) = true <;>
    simp [OrderedSet.try_from, OrderableSet.try_from, h]

/-! ## Helper lemmas for `FileSet` -/

@[simp]
theorem is_dir_eq_true (ft : FileType) : ft.is_dir = true ↔ ft = FileType.dir := by
  cases ft <;> simp [FileType.is_dir]

@[simp]
theorem is_file_eq_true (ft : FileType) : ft.is_file = true ↔ ft = FileType.file := by
  cases ft <;> simp [FileType.is_file]

@[simp]
theorem is_symlink_eq_true (ft : FileType) :
    ft.is_symlink = true ↔ ft = FileType.symlink := by
  cases ft <;> simp [FileType.is_symlink]

/-- The file type an `ItemFilter` selects. -/
def kindOf : ItemFilter → FileType
  | .Directory => .dir
  | .File => .file
  | .Symlink => .symlink

theorem mem_filter_by_item (env : Fs) (s : FileSet) (k : ItemFilter) (p : PathBuf) :
    p ∈ s.filter_by_item env k ↔
      p ∈ s.index_set ∧ ∃ m, env.symlinkMeta p = some m ∧ m.fileType = kindOf k := by
  cases k <;>
    · simp only [FileSet.filter_by_item, List.mem_filter, kindOf]
      rcases hm : env.symlinkMeta p with _ | m <;> simp [hm]

theorem filter_subset_mem (env : Fs) (s : FileSet) (c : Filter) (p : PathBuf)
    (h : p ∈ (s.filter env c).index_set) : p ∈ s.index_set := by
  cases c with
  | Item i =>
    simp only [FileSet.filter] at h
    exact ((mem_filter_by_item env s i p).mp h).1
  | Text t txt =>
    simp only [FileSet.filter, FileSet.filter_by_text] at h
    exact (List.mem_filter.mp h).1
  | Visibility v =>
    simp only [FileSet.filter, FileSet.filter_by_visibility] at h
    exact (List.mem_filter.mp h).1

theorem mem_exclude_iff (env : Fs) (s : FileSet) (c : Filter) (p : PathBuf) :
    p ∈ (s.exclude env c).index_set ↔
      p ∈ s.index_set ∧ p ∉ (s.filter env c).index_set := by
  simp [FileSet.exclude, List.mem_filter]

/-! ## Claim theorems for `FileSet` -/

/-- Claim C3: for every `EntrySet`, criterion and fixed filesystem
state, `filter(C)` and `exclude(C)` partition the receiver's paths:
a path of the receiver lies in their union, and no path lies in both. -/
theorem fileSet_filter_exclude_partition (env : Fs) (s : FileSet) (c : Filter)
    (p : PathBuf) :
    (p ∈ s.to_vec ↔
      p ∈ (s.filter env c).to_vec ∨ p ∈ (s.exclude env c).to_vec) ∧
      ¬(p ∈ (s.filter env c).to_vec ∧ p ∈ (s.exclude env c).to_vec) := by
  simp only [FileSet.to_vec]
  constructor
  · constructor
    · intro hp
      by_cases hf : p ∈ (s.filter env c).index_set
      · exact Or.inl hf
      · exact Or.inr ((mem_exclude_iff env s c p).mpr ⟨hp, hf⟩)
    · rintro (hf | he)
      · exact filter_subset_mem env s c p hf
      · exact ((mem_exclude_iff env s c p).mp he).1
  · rintro ⟨hf, he⟩
    exact ((mem_exclude_iff env s c p).mp he).2 hf

/-- Claim C3 witness: over `envOne`, the path `a` of the set `[a, c]`
lands in the filter-or-exclude union for the file criterion. -/
theorem fileSet_filter_exclude_partition_witness :
    pathA ∈ ((FileSet.mk [pathA, pathC]).filter envOne
        (Filter.Item ItemFilter.File)).to_vec ∨
      pathA ∈ ((FileSet.mk [pathA, pathC]).exclude envOne
        (Filter.Item ItemFilter.File)).to_vec :=
  (fileSet_filter_exclude_partition envOne ⟨[pathA, pathC]⟩
    (Filter.Item ItemFilter.File) pathA).1.mp (by decide)

/-- Claim C5: filtering by kind classifies each path by its link-aware
metadata: a symlink matches only the symlink criterion (so
`filter(File)` excludes a symlink pointing to a file), a directory
matches only the directory criterion, a regular file matches only the
file criterion, and a path whose metadata cannot be read matches no
kind and is dropped without error. -/
theorem fileSet_filter_by_kind_spec (env : Fs) (s : FileSet) (p : PathBuf) :
    (∀ m, env.symlinkMeta p = some m →
      (m.fileType = FileType.symlink →
        ((p ∈ (s.filter env (Filter.Item ItemFilter.Symlink)).to_vec ↔ p ∈ s.to_vec) ∧
          p ∉ (s.filter env (Filter.Item ItemFilter.File)).to_vec ∧
          p ∉ (s.filter env (Filter.Item ItemFilter.Directory)).to_vec)) ∧
      (m.fileType = FileType.dir →
        ((p ∈ (s.filter env (Filter.Item ItemFilter.Directory)).to_vec ↔ p ∈ s.to_vec) ∧
          p ∉ (s.filter env (Filter.Item ItemFilter.File)).to_vec ∧
          p ∉ (s.filter env (Filter.Item ItemFilter.Symlink)).to_vec)) ∧
      (m.fileType = FileType.file →
        ((p ∈ (s.filter env (Filter.Item ItemFilter.File)).to_vec ↔ p ∈ s.to_vec) ∧
          p ∉ (s.filter env (Filter.Item ItemFilter.Symlink)).to_vec ∧
          p ∉ (s.filter env (Filter.Item ItemFilter.Directory)).to_vec))) ∧
      (env.symlinkMeta p = none →
        ∀ k, p ∉ (s.filter env (Filter.Item k)).to_vec) := by
  constructor
  · intro m hm
    refine ⟨fun hft => ?_, fun hft => ?_, fun hft => ?_⟩ <;>
      simp [FileSet.to_vec, FileSet.filter, mem_filter_by_item, hm, hft, kindOf]
  · intro hm k
    simp [FileSet.to_vec, FileSet.filter, mem_filter_by_item, hm]

/-- Claim C5 witness: over `envOne`, the symlink `c` is matched by the
symlink criterion and rejected by the file criterion, and the
unreadable path `b` is matched by no kind. -/
theorem fileSet_filter_by_kind_spec_witness :
    (pathC ∈ ((FileSet.mk [pathA, pathB, pathC]).filter envOne
        (Filter.Item ItemFilter.Symlink)).to_vec ∧
      pathC ∉ ((FileSet.mk [pathA, pathB, pathC]).filter envOne
        (Filter.Item ItemFilter.File)).to_vec) ∧
      pathB ∉ ((FileSet.mk [pathA, pathB, pathC]).filter envOne
        (Filter.Item ItemFilter.Directory)).to_vec := by
  have hc := (fileSet_filter_by_kind_spec envOne ⟨[pathA, pathB, pathC]⟩ pathC).1
    ⟨FileType.symlink, 0⟩ (by decide) |>.1 rfl
  have hb := (fileSet_filter_by_kind_spec envOne ⟨[pathA, pathB, pathC]⟩ pathB).2
    (by decide) ItemFilter.Directory
  exact ⟨⟨hc.1.mpr (by decide), hc.2.1⟩, hb⟩

/-- Claim C7: `FileSet::reverse` returns a new `FileSet` whose path
order is the exact reverse of the receiver's, and reversing twice
yields the original. -/
theorem fileSet_reverse_spec (s : FileSet) :
    (s.reverse.to_vec.length = s.to_vec.length ∧
      ∀ i, i < s.to_vec.length →
        s.reverse.to_vec[s.to_vec.length - 1 - i]? = s.to_vec[i]?) ∧
      s.reverse.reverse = s := by
  refine ⟨⟨by simp [FileSet.to_vec, FileSet.reverse], fun i hi => ?_⟩, ?_⟩
  · simp only [FileSet.to_vec, FileSet.reverse] at hi ⊢
    have h1 : s.index_set.length - 1 - i < s.index_set.length := by omega
    rw [List.getElem?_reverse h1]
    congr 1
    omega
  · show FileSet.mk s.index_set.reverse.reverse = s
    rw [List.reverse_reverse]

/-- Claim C7 witness: reversing the two-path set `[a, b]`. -/
theorem fileSet_reverse_spec_witness :
    0 < 2 ∧ (FileSet.mk [pathA, pathB]).reverse.to_vec[1]? = some pathA :=
  ⟨by decide, by
    simpa using (fileSet_reverse_spec ⟨[pathA, pathB]⟩).1.2 0 (by decide)⟩

theorem filter_by_item_disjoint (env : Fs) (s : FileSet) {k k2 : ItemFilter}
    (hne : kindOf k ≠ kindOf k2) (a : PathBuf) (ha : a ∈ s.filter_by_item env k) :
    a ∉ s.filter_by_item env k2 := by
  intro ha2
  rcases (mem_filter_by_item env s k a).mp ha with ⟨_, m, hm, hft⟩
  rcases (mem_filter_by_item env s k2 a).mp ha2 with ⟨_, m2, hm2, hft2⟩
  rw [hm] at hm2
  injection hm2 with h
  subst h
  exact hne (hft.symm.trans hft2)

theorem order_by_item_eq (env : Fs) (s : FileSet) :
    s.order_by_item env =
      s.filter_by_item env ItemFilter.Directory ++
        (s.filter_by_item env ItemFilter.File ++
          s.filter_by_item env ItemFilter.Symlink) := by
  simp only [FileSet.order_by_item, FileSet.filter, indexSetUnion]
  have hf : (s.filter_by_item env ItemFilter.File).filter
      (fun x => decide (x ∉ s.filter_by_item env ItemFilter.Directory)) =
      s.filter_by_item env ItemFilter.File := by
    rw [List.filter_eq_self]
    intro a ha
    exact decide_eq_true
      (filter_by_item_disjoint env s (by simp [kindOf]) a ha)
  have hs : (s.filter_by_item env ItemFilter.Symlink).filter
      (fun x => decide (x ∉ s.filter_by_item env ItemFilter.Directory ++
        (s.filter_by_item env ItemFilter.File).filter
          (fun x => decide (x ∉ s.filter_by_item env ItemFilter.Directory)))) =
      s.filter_by_item env ItemFilter.Symlink := by
    rw [List.filter_eq_self]
    intro a ha
    refine decide_eq_true ?_
    rw [hf, List.mem_append]
    rintro (hd | hfl)
    · exact filter_by_item_disjoint env s (by simp [kindOf]) a ha hd
    · exact filter_by_item_disjoint env s (by simp [kindOf]) a ha hfl
  rw [hs, hf, List.append_assoc]

/-- Claim C4: `order_by(Item)` is the union, in sequence, of the
filter-by-kind results for directories, regular files and symbolic
links — all directories first in original relative order, then all
regular files, then all symbolic links — and any entry whose kind
cannot be read matches none of the three groups and is dropped. -/
theorem fileSet_order_by_item_spec (env : Fs) (s : FileSet) :
    FileSet.order_by env s OrderBy.Item =
      some ⟨s.filter_by_item env ItemFilter.Directory ++
        (s.filter_by_item env ItemFilter.File ++
          s.filter_by_item env ItemFilter.Symlink)⟩ ∧
      ∀ p, env.symlinkMeta p = none → p ∉ s.order_by_item env := by
  constructor
  · show some (FileSet.mk (s.order_by_item env)) = _
    rw [order_by_item_eq]
  · intro p hp
    rw [order_by_item_eq]
    simp [List.mem_append, mem_filter_by_item, hp]

/-- Claim C4 witness: over `envOne` the unreadable path `b` is dropped
from `order_by(Item)`. -/
theorem fileSet_order_by_item_spec_witness :
    pathB ∉ (FileSet.mk [pathB, pathA]).order_by_item envOne :=
  (fileSet_order_by_item_spec envOne ⟨[pathB, pathA]⟩).2 pathB (by decide)

/-- Claim C6: `order_by(Name)` yields a sequence whose file-name keys
are non-decreasing (`None` below every name, names compared
lexicographically), ties preserve the receiver's relative order (per
name key, filtering the output equals filtering the input), and
applying `order_by(Name)` twice yields the same sequence as once. -/
theorem fileSet_order_by_name_spec (env : Fs) (s : FileSet) :
    ∃ t : FileSet, FileSet.order_by env s OrderBy.Name = some t ∧
      t.to_vec.Pairwise (fun a b => nameKey a ≤ nameKey b) ∧
      (∀ k : WithBot Name,
        t.to_vec.filter (fun p => decide (nameKey p = k)) =
          s.to_vec.filter (fun p => decide (nameKey p = k))) ∧
      FileSet.order_by env t OrderBy.Name = some t := by
  refine ⟨⟨sortByKey nameKey s.index_set⟩, rfl, ?_, ?_, ?_⟩
  · exact sortByKey_sorted nameKey s.index_set
  · intro k
    show (sortByKey nameKey s.index_set).filter (fun p => decide (nameKey p = k)) =
      s.index_set.filter (fun p => decide (nameKey p = k))
    exact sortByKey_filter_key nameKey k _ (fun x => by simp) s.index_set
  · show some (FileSet.mk (sortByKey nameKey (sortByKey nameKey s.index_set))) = _
    rw [sortByKey_idem]

theorem foldl_collect (l : List PathBuf) (acc : List PathBuf)
    (hacc : ∀ x ∈ l, x ∉ acc) (h : l.Nodup) :
    l.foldl (fun acc x => if x ∈ acc then acc else acc ++ [x]) acc = acc ++ l := by
  induction l generalizing acc with
  | nil => simp
  | cons x l ih =>
    rw [List.foldl_cons, if_neg (hacc x (List.mem_cons_self x l))]
    rw [ih (acc ++ [x]) ?_ (List.nodup_cons.mp h).2]
    · simp
    · intro y hy
      simp only [List.mem_append, List.mem_singleton]
      rintro (hy2 | rfl)
      · exact hacc y (List.mem_cons_of_mem x hy) hy2
      · exact (List.nodup_cons.mp h).1 hy

theorem indexSetCollect_eq_self {l : List PathBuf} (h : l.Nodup) :
    indexSetCollect l = l := by
  simpa [indexSetCollect] using foldl_collect l [] (by simp) h

/-- Claim C1 counterexample: with a listing whose first child entry
fails to read and whose second succeeds, `FileSet::new` panics
(`read_dir` entries are unwrapped), producing no `FileSet` at all,
whereas the claimed behavior skips the failing child and succeeds with
the remaining path; and when the directory itself cannot be opened the
code panics as well — no `DirectoryUnreadable` error value exists in
`src/`, the function has no error channel. -/
theorem fileSet_new_counterexample :
    FileSet.new (some [none, some pathA]) = none ∧
      FileSet.new_claimed (some [none, some pathA]) = Except.ok ⟨[pathA]⟩ ∧
      FileSet.new none = none := by
  refine ⟨rfl, ?_, rfl⟩
  show (Except.ok ⟨indexSetCollect [pathA]⟩ : Except FileSetError FileSet) =
    Except.ok ⟨[pathA]⟩
  rw [indexSetCollect_eq_self (by decide)]

/-- Claim C1 (amended): `FileSet::new` panics — aborting construction
with no produced value and no error value — both when the directory
itself cannot be opened and when any individual child entry cannot be
read; when every child entry is readable it succeeds with the child
paths in enumeration order, first occurrences kept (hence the
enumeration itself whenever it has no duplicates). -/
theorem fileSet_new_spec (entries : List (Option PathBuf)) :
    FileSet.new none = none ∧
      ((∃ e ∈ entries, e = none) → FileSet.new (some entries) = none) ∧
      ((∀ e ∈ entries, e.isSome = true) →
        FileSet.new (some entries) =
          some ⟨indexSetCollect (entries.filterMap id)⟩) ∧
      ((∀ e ∈ entries, e.isSome = true) → (entries.filterMap id).Nodup →
        FileSet.new (some entries) = some ⟨entries.filterMap id⟩) := by
  refine ⟨rfl, fun h => ?_, fun h => ?_, fun h hnd => ?_⟩
  · rcases h with ⟨e, he, rfl⟩
    have hall : entries.all Option.isSome = false := by
      rw [List.all_eq_false]
      exact ⟨none, he, by simp⟩
    simp [FileSet.new, hall]
  · have hall : entries.all Option.isSome = true := List.all_eq_true.mpr h
    simp [FileSet.new, hall]
  · have hall : entries.all Option.isSome = true := List.all_eq_true.mpr h
    simp [FileSet.new, hall, indexSetCollect_eq_self hnd]

/-- Claim C1 (amended) witness: a failing child entry panics the
construction; an all-readable listing succeeds verbatim. -/
theorem fileSet_new_spec_witness :
    FileSet.new (some [some pathA, none]) = none ∧
      FileSet.new (some [some pathA, some pathB]) = some ⟨[pathA, pathB]⟩ :=
  ⟨(fileSet_new_spec [some pathA, none]).2.1 ⟨none, by decide, rfl⟩,
    (fileSet_new_spec [some pathA, some pathB]).2.2.2 (by decide) (by decide)⟩

/-- Claim C2 counterexample: over `envOne` the path `b` has unreadable
metadata; ordering the two-element set `[a, b]` by size panics (the
sort comparator calls `symlink_metadata().unwrap()` on `b`), producing
no `EntrySet` at all, instead of keeping `b` with size 0. -/
theorem fileSet_order_by_size_counterexample :
    FileSet.order_by envOne ⟨[pathA, pathB]⟩ OrderBy.Size = none := by
  decide

/-- Claim C2 (amended): `order_by(Size)` stably sorts the paths
ascending by link-aware byte size when every path's metadata is
readable; with at most one path the sequence is returned unchanged
(the comparator never runs); but when the set has at least two paths
and some path's metadata cannot be read, the operation panics —
aborting with no result — rather than treating that path as size 0. -/
theorem fileSet_order_by_size_spec (env : Fs) (s : FileSet) :
    ((∀ p ∈ s.to_vec, (env.symlinkMeta p).isSome = true) →
      ∃ t : FileSet, FileSet.order_by env s OrderBy.Size = some t ∧
        t.to_vec.Perm s.to_vec ∧
        t.to_vec.Pairwise (fun a b => sizeKey env a ≤ sizeKey env b) ∧
        ∀ n : Nat,
          t.to_vec.filter (fun p => decide (sizeKey env p = n)) =
            s.to_vec.filter (fun p => decide (sizeKey env p = n))) ∧
      (s.to_vec.length ≤ 1 → FileSet.order_by env s OrderBy.Size = some s) ∧
      (2 ≤ s.to_vec.length → (∃ p ∈ s.to_vec, env.symlinkMeta p = none) →
        FileSet.order_by env s OrderBy.Size = none) := by
  refine ⟨fun hall => ?_, fun hlen => ?_, fun hlen hex => ?_⟩
  · by_cases hlen : s.index_set.length ≤ 1
    · refine ⟨s, ?_, List.Perm.refl _, ?_, fun n => rfl⟩
      · show (FileSet.order_by_extension_name_size env s OrderBy.Size).map
          FileSet.mk = some s
        simp only [FileSet.order_by_extension_name_size]
        rw [if_pos hlen]
        rfl
      · show s.index_set.Pairwise fun a b => sizeKey env a ≤ sizeKey env b
        rcases hcases : s.index_set with _ | ⟨a, _ | ⟨b, l⟩⟩
        · simp
        · simp
        · rw [hcases] at hlen
          simp at hlen
    · have hall2 : (s.index_set.all fun p => (env.symlinkMeta p).isSome) = true :=
        List.all_eq_true.mpr hall
      refine ⟨⟨sortByKey (sizeKey env) s.index_set⟩, ?_, ?_, ?_, ?_⟩
      · show (FileSet.order_by_extension_name_size env s OrderBy.Size).map
          FileSet.mk = _
        simp only [FileSet.order_by_extension_name_size]
        rw [if_neg hlen, if_pos hall2]
        rfl
      · exact sortByKey_perm (sizeKey env) s.index_set
      · exact sortByKey_sorted (sizeKey env) s.index_set
      · intro n
        show (sortByKey (sizeKey env) s.index_set).filter
            (fun p => decide (sizeKey env p = n)) =
          s.index_set.filter (fun p => decide (sizeKey env p = n))
        exact sortByKey_filter_key (sizeKey env) n _ (fun x => by simp) s.index_set
  · show (FileSet.order_by_extension_name_size env s OrderBy.Size).map
      FileSet.mk = some s
    simp only [FileSet.order_by_extension_name_size]
    rw [if_pos (show s.index_set.length ≤ 1 from hlen)]
    rfl
  · rcases hex with ⟨p, hp, hpm⟩
    have hall : (s.index_set.all fun p => (env.symlinkMeta p).isSome) = false := by
      rw [List.all_eq_false]
      exact ⟨p, hp, by simp [hpm]⟩
    have hlen2 : ¬s.index_set.length ≤ 1 := by
      simp only [FileSet.to_vec] at hlen
      omega
    show (FileSet.order_by_extension_name_size env s OrderBy.Size).map
      FileSet.mk = none
    simp only [FileSet.order_by_extension_name_size]
    rw [if_neg hlen2, if_neg (by simp [hall])]
    rfl

/-- Claim C2 (amended) witness: over `envOne`, sorting `[c, a]`
(readable, sizes 0 and 1) succeeds sorted; sorting `[b, a]` with `b`
unreadable panics. -/
theorem fileSet_order_by_size_spec_witness :
    FileSet.order_by envOne ⟨[pathB, pathA]⟩ OrderBy.Size = none ∧
      FileSet.order_by envOne ⟨[pathA]⟩ OrderBy.Size = some ⟨[pathA]⟩ ∧
      ∃ t : FileSet, FileSet.order_by envOne ⟨[pathC, pathA]⟩ OrderBy.Size = some t ∧
        t.to_vec.Pairwise fun a b => sizeKey envOne a ≤ sizeKey envOne b := by
  refine ⟨(fileSet_order_by_size_spec envOne ⟨[pathB, pathA]⟩).2.2 (by decide)
      ⟨pathB, by decide, by decide⟩,
    (fileSet_order_by_size_spec envOne ⟨[pathA]⟩).2.1 (by decide), ?_⟩
  rcases (fileSet_order_by_size_spec envOne ⟨[pathC, pathA]⟩).1 (by decide)
    with ⟨t, ht, _, hsorted, _⟩
  exact ⟨t, ht, hsorted⟩

end FileSetVerif
